import Mathlib

set_option maxHeartbeats 1000000

namespace Nanobox

/-! Shallow embedding of the archive-and-transfer subsystem of
`util/file/file.go` and of the environment-variable commands of
`commands/dev/env.go`.  Paths (Go strings joined with "/") are modelled as
lists of components; file bodies are byte lists (`List Nat`); machine
integers are `Nat`/`Int`; the `float64` arithmetic of `Progress` is modelled
with exact rationals (every value reached in the theorems below is exactly
representable, see the comments at `Progress`). -/

/-- A node of the modelled on-disk filesystem: a directory carrying its mode
bits, or a regular file carrying mode bits and byte content. -/
inductive FsNode where
  | dirN (mode : Nat)
  | fileN (mode : Nat) (content : List Nat)
deriving DecidableEq, Repr

/-- The filesystem state `Untar` mutates: a finite association of paths to
nodes.  A path is the list of its components. -/
abbrev FS := List (List String × FsNode)

/-- Lookup of a path in the filesystem (first match). -/
def lookupFS (fs : FS) (p : List String) : Option FsNode :=
  match fs with
  | [] => none
  | (q, n) :: rest => if q = p then some n else lookupFS rest p

/-- Replace the node stored at `p` (no-op if absent). -/
def updateFS (fs : FS) (p : List String) (n : FsNode) : FS :=
  match fs with
  | [] => []
  | (q, m) :: rest => if q = p then (q, n) :: rest else (q, m) :: updateFS rest p n

/-- Errors surfaced by the modelled `Untar` loop.  `unhandledType` mirrors the
default branch `fmt.Errorf("Unhandled type (%v) for %v", header.Typeflag,
header.Name)`; the others are the OS errors of `os.Create` / `os.MkdirAll`. -/
inductive UntarError where
  | createNoParent (name : List String)
  | createIsDir (name : List String)
  | mkdirNotADir (name : List String)
  | unhandledType (typeflag : Nat) (name : List String)
deriving DecidableEq, Repr

/-- One tar header together with its body, as produced by `tar.NewWriter` /
consumed by `tar.NewReader`.  `typeflag` is the byte of `tar.Header.Typeflag`:
48 is `tar.TypeReg` ('0'), 53 is `tar.TypeDir` ('5').  The header `Size` field
is the length of `body`. -/
structure TarEntry where
  name : List String
  mode : Nat
  typeflag : Nat
  body : List Nat
deriving DecidableEq, Repr

/-- tar.TypeReg, the byte '0'. -/
def tarTypeReg : Nat := 48

/-- tar.TypeDir, the byte '5'. -/
def tarTypeDir : Nat := 53

instance {ε α : Type} [DecidableEq ε] [DecidableEq α] : DecidableEq (Except ε α) := fun x y =>
  match x, y with
  | .ok a, .ok b =>
    if h : a = b then .isTrue (by rw [h]) else .isFalse (fun he => h (Except.ok.inj he))
  | .error a, .error b =>
    if h : a = b then .isTrue (by rw [h]) else .isFalse (fun he => h (Except.error.inj he))
  | .ok _, .error _ => .isFalse (fun he => Except.noConfusion he)
  | .error _, .ok _ => .isFalse (fun he => Except.noConfusion he)

/-- One prefix step of `os.MkdirAll`: an existing directory is kept (its mode
is not touched), an existing regular file is an error, a missing entry is
created as a directory with mode `perm`. -/
def mkdirStep (perm : Nat) (fs : FS) (q : List String) : Except UntarError FS :=
  match lookupFS fs q with
  | some (.dirN _) => .ok fs
  | some (.fileN _ _) => .error (.mkdirNotADir q)
  | none => .ok ((q, .dirN perm) :: fs)

/-- `os.MkdirAll(name, perm)`: create every missing prefix of the path as a
directory with mode `perm`; idempotent on directories that already exist. -/
def mkdirAll (fs : FS) (p : List String) (perm : Nat) : Except UntarError FS :=
  (List.range p.length).foldlM (fun acc i => mkdirStep perm acc (p.take (i + 1))) fs

/-- `os.Create(header.Name)` followed by `io.Copy(f, tr)`: creating a file
requires its parent directory to exist already (`os.Create` creates no
ancestors and fails with ENOENT otherwise); a fresh file is created with the
default mode 0o666 — the header's stored mode is never applied; a file that
already exists keeps its previous mode and is truncated to the new body;
an existing directory at the target is an error. -/
def untarReg (fs : FS) (name : List String) (body : List Nat) : Except UntarError FS :=
  match lookupFS fs name with
  | some (.dirN _) => .error (.createIsDir name)
  | some (.fileN m _) => .ok (updateFS fs name (.fileN m body))
  | none =>
    match name.dropLast with
    | [] => .ok ((name, .fileN 0o666 body) :: fs)
    | parent =>
      match lookupFS fs parent with
      | some (.dirN _) => .ok ((name, .fileN 0o666 body) :: fs)
      | _ => .error (.createNoParent name)

/-- The body of Untar's header loop for one entry: a directory entry runs
`os.MkdirAll(header.Name, os.FileMode(header.Mode))`, a regular entry runs
`os.Create(header.Name)` plus `io.Copy(f, tr)`, and any other typeflag is the
default branch returning the "Unhandled type" error. -/
def untarEntry (fs : FS) (e : TarEntry) : Except UntarError FS :=
  if e.typeflag = tarTypeDir then mkdirAll fs e.name e.mode
  else if e.typeflag = tarTypeReg then untarReg fs e.name e.body
  else .error (.unhandledType e.typeflag e.name)

/-- Untar's header loop: entries are processed in stream order until `io.EOF`
(end of the list) or the first error, which is returned at once. -/
def untarEntries (entries : List TarEntry) (fs : FS) : Except UntarError FS :=
  match entries with
  | [] => .ok fs
  | e :: rest =>
    match untarEntry fs e with
    | .ok fs' => untarEntries rest fs'
    | .error err => .error err

/-- `Untar(dst, r)`.  The gzip and tar framing of the reader `r` is abstracted
into the decoded entry list.  `dst` is the first parameter of the Go function;
its body never references it — every entry is materialized at its stored
`header.Name`. -/
def Untar (dst : String) (entries : List TarEntry) (fs : FS) : Except UntarError FS :=
  untarEntries entries fs

/-- A source directory tree as the walk and the copy see it: regular files
(mode, content), directories (mode, named children), and `special` for every
non-regular non-directory node (symlink, device, socket, named pipe).
Children are listed in the name-sorted order `filepath.Walk` enumerates
directory contents in. -/
inductive FsTree where
  | file (mode : Nat) (content : List Nat)
  | special (mode : Nat)
  | dir (mode : Nat) (children : List (String × FsTree))

mutual
/-- `filepath.Walk` as driven by Tar's walk function: a regular file emits one
header (Name = the walk-reported joined path, Mode = its mode bits, Size = its
byte length, Typeflag = `tar.TypeReg`) immediately followed by its content;
directories and non-regular nodes emit nothing (`fi.Mode().IsRegular()` is the
only case acted on). -/
def tarWalk (path : List String) : FsTree → List TarEntry
  | .file m c => [⟨path, m, tarTypeReg, c⟩]
  | .special _ => []
  | .dir _ cs => tarWalkL path cs

/-- Walk of the children of a directory, in listing order. -/
def tarWalkL (path : List String) : List (String × FsTree) → List TarEntry
  | [] => []
  | (n, t) :: rest => tarWalk (path ++ [n]) t ++ tarWalkL path rest
end

/-- `Tar(path, writers...)`: a single walk of the tree rooted at `path` feeds
the gzip/tar layers, which are abstracted into the produced entry stream.  In
the model no I/O fault occurs, so the walk always completes. -/
def Tar (path : List String) (t : FsTree) : List TarEntry := tarWalk path t

example : Tar ["a"] (.dir 0o755 [("f", .file 0o644 [104])]) =
    [⟨["a", "f"], 0o644, 48, [104]⟩] := by decide

example : Untar "x" [⟨["d"], 0o700, 53, []⟩] [] = .ok [(["d"], .dirN 0o700)] := by decide

example : Untar "x" [⟨["d", "f"], 0o644, 48, [1]⟩] [] =
    .error (.createNoParent ["d", "f"]) := by decide

/-- Processing a concatenated entry stream is processing the first part and,
if that succeeded, continuing with the second on the resulting filesystem. -/
theorem untarEntries_append (xs ys : List TarEntry) (fs : FS) :
    untarEntries (xs ++ ys) fs =
      match untarEntries xs fs with
      | .ok fs' => untarEntries ys fs'
      | .error e => .error e := by
  induction xs generalizing fs with
  | nil => rfl
  | cons e xs ih =>
    simp only [List.cons_append, untarEntries]
    cases untarEntry fs e with
    | ok fs' => exact ih fs'
    | error err => rfl

/-- C5: Untar materializes every entry at its stored path, never joined under
the `destRoot` argument — the run is the `destRoot`-free `untarEntries`, so the
value of `destRoot` has no effect on the result. -/
theorem untar_ignores_destRoot (dst dst' : String) (entries : List TarEntry) (fs : FS) :
    Untar dst entries fs = untarEntries entries fs ∧
    Untar dst entries fs = Untar dst' entries fs :=
  ⟨rfl, rfl⟩

/-- C4: on a stream whose prefix restores successfully and whose next entry
has a typeflag that is neither regular file nor directory, Untar returns the
"Unhandled type" error naming that entry's kind, and the entries after it are
never processed (the result does not depend on them). -/
theorem untar_stops_at_unknown_typeflag (pre post : List TarEntry) (e : TarEntry)
    (fs fs' : FS) (hpre : untarEntries pre fs = .ok fs')
    (hreg : e.typeflag ≠ tarTypeReg) (hdir : e.typeflag ≠ tarTypeDir) :
    untarEntries (pre ++ e :: post) fs = .error (.unhandledType e.typeflag e.name) := by
  rw [untarEntries_append, hpre]
  show untarEntries (e :: post) fs' = _
  simp [untarEntries, untarEntry, hreg, hdir]

theorem untar_stops_at_unknown_typeflag_witness :
    untarEntries [⟨["d"], 0o755, 53, []⟩] [] = .ok [(["d"], FsNode.dirN 0o755)] ∧
    (50 : Nat) ≠ tarTypeReg ∧ (50 : Nat) ≠ tarTypeDir ∧
    untarEntries
        ([⟨["d"], 0o755, 53, []⟩] ++ ⟨["d", "s"], 0o777, 50, []⟩ :: [⟨["d", "f"], 0o644, 48, [1]⟩]) []
      = .error (.unhandledType 50 ["d", "s"]) :=
  ⟨by decide, by decide, by decide,
   untar_stops_at_unknown_typeflag [⟨["d"], 0o755, 53, []⟩] [⟨["d", "f"], 0o644, 48, [1]⟩]
     ⟨["d", "s"], 0o777, 50, []⟩ [] [(["d"], FsNode.dirN 0o755)]
     (by decide) (by decide) (by decide)⟩

/-- C1 fails on the code: archiving the spec's own example tree
a/f1 (mode 0644, "hello"), a/b/f2 (mode 0755, "world") and restoring the
stream into an empty destination filesystem errors at the first file (Tar
emitted no directory entries and os.Create cannot create parents); and even
when the parent directories are pre-created, the restored f1 carries the
default creation mode 0o666, not its stored mode 0o644. -/
theorem tar_untar_roundtrip_breaks :
    (Untar "dest"
        (Tar ["a"] (.dir 0o755
          [("b", .dir 0o755 [("f2", .file 0o755 [119, 111, 114, 108, 100])]),
           ("f1", .file 0o644 [104, 101, 108, 108, 111])])) []
      = .error (.createNoParent ["a", "b", "f2"])) ∧
    ((Untar "dest"
        (Tar ["a"] (.dir 0o755
          [("b", .dir 0o755 [("f2", .file 0o755 [119, 111, 114, 108, 100])]),
           ("f1", .file 0o644 [104, 101, 108, 108, 111])]))
        [(["a"], .dirN 0o755), (["a", "b"], .dirN 0o755)]).toOption.bind
        (fun fs => lookupFS fs ["a", "f1"])
      = some (.fileN 0o666 [104, 101, 108, 108, 111]) ∧ (0o666 : Nat) ≠ 0o644) := by
  decide

/-- `copyFile(src, dst)`: `os.Create(dst)` (mode 0o666), `io.Copy` of the full
content, then `os.Stat(src)` and `os.Chmod(dst, fi.Mode())` — the source mode
is applied after the content copy, so the resulting node carries the source's
content and mode. -/
def copyFileGo (mode : Nat) (content : List Nat) : FsTree := .file mode content

mutual
/-- `copyDir(src, dst)`: stat the source directory, `os.MkdirAll(dst, fi.Mode())`
(so a fresh destination directory gets the source's mode), then process each
entry reported by `Readdir`. -/
def copyDirGo (mode : Nat) (children : List (String × FsTree)) : FsTree :=
  .dir mode (copyChildrenGo children)

/-- The `Readdir` loop of `copyDir`: directories recurse into `copyDir`,
regular files go through `copyFile`, and every other kind falls through the
switch without a case — it is skipped silently. -/
def copyChildrenGo : List (String × FsTree) → List (String × FsTree)
  | [] => []
  | (n, .dir m cs) :: rest => (n, copyDirGo m cs) :: copyChildrenGo rest
  | (n, .file m c) :: rest => (n, copyFileGo m c) :: copyChildrenGo rest
  | (_, .special _) :: rest => copyChildrenGo rest
end

/-- `Copy(dst, src)`: `os.Stat(src)` (the model takes the existing source
tree), `os.MkdirAll(dst, sfi.Mode())`, then `copyDir(src, dst)`.  `Readdir`
fails on a non-directory source, so only a directory source copies; the
destination is modelled as fresh. -/
def Copy : FsTree → Except String FsTree
  | .dir m cs => .ok (copyDirGo m cs)
  | _ => .error "readdirent: not a directory"

mutual
/-- The regular files of a tree rooted at `p`: for each one its path, its mode
bits and its byte content. -/
def regFiles (p : List String) : FsTree → List (List String × Nat × List Nat)
  | .file m c => [(p, m, c)]
  | .special _ => []
  | .dir _ cs => regFilesL p cs

def regFilesL (p : List String) : List (String × FsTree) → List (List String × Nat × List Nat)
  | [] => []
  | (n, t) :: rest => regFiles (p ++ [n]) t ++ regFilesL p rest
end

mutual
/-- The directories of a tree rooted at `p`, with their mode bits. -/
def dirPaths (p : List String) : FsTree → List (List String × Nat)
  | .file _ _ => []
  | .special _ => []
  | .dir m cs => (p, m) :: dirPathsL p cs

def dirPathsL (p : List String) : List (String × FsTree) → List (List String × Nat)
  | [] => []
  | (n, t) :: rest => dirPaths (p ++ [n]) t ++ dirPathsL p rest
end

theorem regFilesL_copyChildren :
    ∀ (p : List String) (cs : List (String × FsTree)),
      regFilesL p (copyChildrenGo cs) = regFilesL p cs
  | _, [] => by simp [copyChildrenGo]
  | p, (n, .dir m cs') :: rest => by
    simp only [copyChildrenGo, regFilesL, copyDirGo, regFiles]
    rw [regFilesL_copyChildren (p ++ [n]) cs', regFilesL_copyChildren p rest]
  | p, (n, .file m c) :: rest => by
    simp only [copyChildrenGo, regFilesL, copyFileGo]
    rw [regFilesL_copyChildren p rest]
  | p, (n, .special m) :: rest => by
    simp only [copyChildrenGo, regFilesL, regFiles, List.nil_append]
    exact regFilesL_copyChildren p rest

theorem dirPathsL_copyChildren :
    ∀ (p : List String) (cs : List (String × FsTree)),
      dirPathsL p (copyChildrenGo cs) = dirPathsL p cs
  | _, [] => by simp [copyChildrenGo]
  | p, (n, .dir m cs') :: rest => by
    simp only [copyChildrenGo, dirPathsL, copyDirGo, dirPaths]
    rw [dirPathsL_copyChildren (p ++ [n]) cs', dirPathsL_copyChildren p rest]
  | p, (n, .file m c) :: rest => by
    simp only [copyChildrenGo, dirPathsL, copyFileGo, dirPaths]
    rw [dirPathsL_copyChildren p rest]
  | p, (n, .special m) :: rest => by
    simp only [copyChildrenGo, dirPathsL, dirPaths, List.nil_append]
    exact dirPathsL_copyChildren p rest

/-- C3: whenever `Copy` succeeds, the destination tree has exactly the
source's regular files — same paths, same byte contents, same mode bits
(each file's mode is applied by the `Chmod` that follows the content copy) —
and exactly the source's directories with matching mode bits. -/
theorem copy_fidelity (t t' : FsTree) (h : Copy t = .ok t') :
    regFiles [] t' = regFiles [] t ∧ dirPaths [] t' = dirPaths [] t := by
  cases t with
  | file m c => exact absurd h (by simp [Copy])
  | special m => exact absurd h (by simp [Copy])
  | dir m cs =>
    have ht' : t' = copyDirGo m cs := by
      have := h
      simp only [Copy] at this
      exact (Except.ok.inj this).symm
    subst ht'
    constructor
    · simp only [copyDirGo, regFiles]
      exact regFilesL_copyChildren [] cs
    · simp only [copyDirGo, dirPaths]
      rw [dirPathsL_copyChildren [] cs]

theorem copy_fidelity_witness :
    Copy (.dir 0o755
        [("b", .dir 0o700 [("f2", .file 0o755 [2])]),
         ("f1", .file 0o644 [1]), ("s", .special 0o777)])
      = .ok (.dir 0o755
        [("b", .dir 0o700 [("f2", .file 0o755 [2])]), ("f1", .file 0o644 [1])]) ∧
    (regFiles [] (.dir 0o755
        [("b", .dir 0o700 [("f2", .file 0o755 [2])]), ("f1", .file 0o644 [1])])
      = regFiles [] (.dir 0o755
        [("b", .dir 0o700 [("f2", .file 0o755 [2])]),
         ("f1", .file 0o644 [1]), ("s", .special 0o777)]) ∧
     dirPaths [] (.dir 0o755
        [("b", .dir 0o700 [("f2", .file 0o755 [2])]), ("f1", .file 0o644 [1])])
      = dirPaths [] (.dir 0o755
        [("b", .dir 0o700 [("f2", .file 0o755 [2])]),
         ("f1", .file 0o644 [1]), ("s", .special 0o777)])) := by
  have h : Copy (.dir 0o755
      [("b", .dir 0o700 [("f2", .file 0o755 [2])]),
       ("f1", .file 0o644 [1]), ("s", .special 0o777)])
      = .ok (.dir 0o755
      [("b", .dir 0o700 [("f2", .file 0o755 [2])]), ("f1", .file 0o644 [1])]) := by
    simp [Copy, copyDirGo, copyChildrenGo, copyFileGo]
  exact ⟨h, copy_fidelity _ _ h⟩

/-- First child of the given name in a directory listing. -/
def assocChild (cs : List (String × FsTree)) (n : String) : Option FsTree :=
  match cs with
  | [] => none
  | (k, t) :: rest => if k = n then some t else assocChild rest n

/-- The node of a tree at a relative path, if any. -/
def treeLookup : FsTree → List String → Option FsTree
  | t, [] => some t
  | .dir _ cs, n :: rest =>
    match assocChild cs n with
    | some c => treeLookup c rest
    | none => none
  | _, _ :: _ => none

/-- No two children of one directory listing share a name (true of every real
directory). -/
def nodupKeys : List (String × FsTree) → Bool
  | [] => true
  | (n, _) :: rest => !(rest.any (fun q => q.1 == n)) && nodupKeys rest

mutual
/-- A well-formed tree: every directory's children carry distinct names. -/
def wfTree : FsTree → Bool
  | .file _ _ => true
  | .special _ => true
  | .dir _ cs => nodupKeys cs && wfChildren cs

def wfChildren : List (String × FsTree) → Bool
  | [] => true
  | (_, t) :: rest => wfTree t && wfChildren rest
end

/-- Whether an optional node is a non-regular, non-directory one. -/
def isSpecialNode : Option FsTree → Bool
  | some (.special _) => true
  | _ => false

theorem assocChild_any {cs : List (String × FsTree)} {n : String} {c : FsTree}
    (h : assocChild cs n = some c) : cs.any (fun q => q.1 == n) = true := by
  induction cs with
  | nil => exact absurd h (by simp [assocChild])
  | cons kt rest ih =>
    obtain ⟨k, t⟩ := kt
    by_cases hk : k = n
    · simp [hk]
    · simp only [assocChild, if_neg hk] at h
      simp [ih h]

theorem assocChild_none {cs : List (String × FsTree)} {n : String}
    (h : cs.any (fun q => q.1 == n) = false) : assocChild cs n = none := by
  induction cs with
  | nil => rfl
  | cons kt rest ih =>
    obtain ⟨k, t⟩ := kt
    simp only [List.any_cons, Bool.or_eq_false_iff] at h
    have hk : ¬(k = n) := by simpa using h.1
    simp only [assocChild, if_neg hk]
    exact ih h.2

/-- Looking a name up in the copied children finds the copy of the source
child of that name, and nothing at all when that child is special. -/
theorem assocChild_copyChildren (n : String) :
    ∀ cs : List (String × FsTree), nodupKeys cs = true →
      assocChild (copyChildrenGo cs) n =
        match assocChild cs n with
        | some (.special _) => none
        | some (.dir m' cs') => some (copyDirGo m' cs')
        | some (.file m' c') => some (copyFileGo m' c')
        | none => none := by
  intro cs
  induction cs with
  | nil => intro _; simp [copyChildrenGo, assocChild]
  | cons kt rest ih =>
    obtain ⟨k, t⟩ := kt
    intro hnd
    simp only [nodupKeys, Bool.and_eq_true, Bool.not_eq_true'] at hnd
    obtain ⟨hk, hnd'⟩ := hnd
    by_cases hkn : k = n
    · subst hkn
      cases t with
      | dir m' cs' => simp [copyChildrenGo, assocChild]
      | file m' c' => simp [copyChildrenGo, assocChild]
      | special m' =>
        simp only [copyChildrenGo, assocChild, if_pos rfl]
        rw [ih hnd', assocChild_none hk]
        simp
    · cases t with
      | dir m' cs' => simp only [copyChildrenGo, assocChild, if_neg hkn]; exact ih hnd'
      | file m' c' => simp only [copyChildrenGo, assocChild, if_neg hkn]; exact ih hnd'
      | special m' => simp only [copyChildrenGo, assocChild, if_neg hkn]; exact ih hnd'

theorem wfTree_of_assocChild :
    ∀ (cs : List (String × FsTree)) (n : String) (c : FsTree),
      assocChild cs n = some c → wfChildren cs = true → wfTree c = true := by
  intro cs
  induction cs with
  | nil => intro n c h _; exact absurd h (by simp [assocChild])
  | cons kt rest ih =>
    obtain ⟨k, t⟩ := kt
    intro n c h hwf
    simp only [wfChildren, Bool.and_eq_true] at hwf
    by_cases hk : k = n
    · simp only [assocChild, if_pos hk] at h
      exact (Option.some.inj h) ▸ hwf.1
    · simp only [assocChild, if_neg hk] at h
      exact ih n c h hwf.2

/-- At any path where the source holds a special node, the copied tree holds
nothing. -/
theorem treeLookup_copy_none :
    ∀ (rel : List String) (m : Nat) (cs : List (String × FsTree)),
      wfTree (.dir m cs) = true →
      isSpecialNode (treeLookup (.dir m cs) rel) = true →
      treeLookup (copyDirGo m cs) rel = none := by
  intro rel
  induction rel with
  | nil =>
    intro m cs _ hs
    exact absurd hs (by simp [treeLookup, isSpecialNode])
  | cons n rest ih =>
    intro m cs hwf hs
    simp only [wfTree, Bool.and_eq_true] at hwf
    obtain ⟨hnd, hwfc⟩ := hwf
    simp only [treeLookup] at hs
    simp only [copyDirGo, treeLookup, assocChild_copyChildren n cs hnd]
    cases hac : assocChild cs n with
    | none => rfl
    | some c =>
      rw [hac] at hs
      cases c with
      | special m' => simp
      | file m' c' =>
        cases rest with
        | nil => simp [treeLookup, isSpecialNode] at hs
        | cons r rs => simp [treeLookup, copyFileGo]
      | dir m' cs' =>
        simpa [copyDirGo] using ih m' cs' (wfTree_of_assocChild cs n _ hac hwfc) hs

mutual
/-- Every entry Tar emits is a regular file of the source tree: its name is
the walk path of a node that looks up as a regular file with that entry's
mode and content. -/
theorem tarWalk_names :
    ∀ (root : List String) (t : FsTree), wfTree t = true →
      ∀ e ∈ tarWalk root t,
        ∃ rel mm cc, e.name = root ++ rel ∧ treeLookup t rel = some (.file mm cc)
  | root, .file m c, _, e, he => by
    simp only [tarWalk, List.mem_singleton] at he
    exact ⟨[], m, c, by simp [he], by simp [treeLookup]⟩
  | root, .special m, _, e, he => absurd he (by simp [tarWalk])
  | root, .dir m cs, hwf, e, he => by
    simp only [tarWalk] at he
    simp only [wfTree, Bool.and_eq_true] at hwf
    obtain ⟨n, rel, mm, cc, c, hname, hassoc, hlook⟩ :=
      tarWalkL_names root cs hwf.1 hwf.2 e he
    exact ⟨n :: rel, mm, cc, hname, by simp [treeLookup, hassoc, hlook]⟩

theorem tarWalkL_names :
    ∀ (root : List String) (cs : List (String × FsTree)),
      nodupKeys cs = true → wfChildren cs = true →
      ∀ e ∈ tarWalkL root cs,
        ∃ n rel mm cc c, e.name = root ++ n :: rel ∧ assocChild cs n = some c ∧
          treeLookup c rel = some (.file mm cc)
  | root, [], _, _, e, he => absurd he (by simp [tarWalkL])
  | root, (k, t) :: rest, hnd, hwfc, e, he => by
    simp only [nodupKeys, Bool.and_eq_true, Bool.not_eq_true'] at hnd
    simp only [wfChildren, Bool.and_eq_true] at hwfc
    simp only [tarWalkL, List.mem_append] at he
    cases he with
    | inl h1 =>
      obtain ⟨rel, mm, cc, hname, hlook⟩ := tarWalk_names (root ++ [k]) t hwfc.1 e h1
      refine ⟨k, rel, mm, cc, t, ?_, by simp [assocChild], hlook⟩
      simpa [List.append_assoc] using hname
    | inr h2 =>
      obtain ⟨n, rel, mm, cc, c, hname, hassoc, hlook⟩ :=
        tarWalkL_names root rest hnd.2 hwfc.2 e h2
      have hkn : ¬(k = n) := by
        intro hkn
        rw [assocChild_none (hkn ▸ hnd.1)] at hassoc
        exact Option.noConfusion hassoc
      exact ⟨n, rel, mm, cc, c, hname, by simp [assocChild, if_neg hkn, hassoc], hlook⟩
end

/-- C8: a source tree holding a non-regular, non-directory node at some path
archives and copies without error, and that node is absent from both results:
no archive entry carries its path, and the copied tree holds nothing there. -/
theorem nonregular_entries_skipped (root rel : List String) (m : Nat)
    (cs : List (String × FsTree))
    (hwf : wfTree (.dir m cs) = true)
    (hs : isSpecialNode (treeLookup (.dir m cs) rel) = true) :
    (∀ e ∈ Tar root (.dir m cs), e.name ≠ root ++ rel) ∧
    Copy (.dir m cs) = .ok (copyDirGo m cs) ∧
    treeLookup (copyDirGo m cs) rel = none := by
  refine ⟨?_, rfl, treeLookup_copy_none rel m cs hwf hs⟩
  intro e he hne
  obtain ⟨rel', mm, cc, hname, hlook⟩ := tarWalk_names root _ hwf e he
  have hrel : rel' = rel := List.append_cancel_left (hname ▸ hne)
  rw [hrel] at hlook
  rw [hlook] at hs
  simp [isSpecialNode] at hs

theorem nonregular_entries_skipped_witness :
    wfTree (.dir 0o755 [("f", .file 0o644 [1]), ("s", .special 0o777)]) = true ∧
    isSpecialNode (treeLookup
        (.dir 0o755 [("f", .file 0o644 [1]), ("s", .special 0o777)]) ["s"]) = true ∧
    ((∀ e ∈ Tar ["r"] (.dir 0o755 [("f", .file 0o644 [1]), ("s", .special 0o777)]),
        e.name ≠ ["r"] ++ ["s"]) ∧
     Copy (.dir 0o755 [("f", .file 0o644 [1]), ("s", .special 0o777)])
       = .ok (copyDirGo 0o755 [("f", .file 0o644 [1]), ("s", .special 0o777)]) ∧
     treeLookup (copyDirGo 0o755 [("f", .file 0o644 [1]), ("s", .special 0o777)]) ["s"]
       = none) :=
  ⟨by decide, by decide,
   nonregular_entries_skipped ["r"] ["s"] 0o755
     [("f", .file 0o644 [1]), ("s", .special 0o777)] (by decide) (by decide)⟩

/-- Result of one `download.Body.Read(p)` call: the bytes delivered plus the
accompanying error (`io.EOF` at end of stream, or any other read error). -/
inductive PErr where
  | eof
  | other (msg : String)
deriving DecidableEq, Repr

/-- Observable fate of one `Progress` call. `panicked` is the runtime panic
raised by `strings.Repeat` on a negative count; `ranOut` marks an input whose
read list ended without a final error and never arises for a real body. -/
inductive POutcome where
  | panicked
  | returned (e : Option String)
  | ranOut
deriving DecidableEq, Repr

/-- Everything one run of the `Progress` loop produces: the outcome, the bytes
written to the sink, the value of `down` after each iteration, and the percent
computed in each iteration. -/
structure PRun where
  outcome : POutcome
  written : List Nat
  downs : List Nat
  percents : List ℚ
deriving DecidableEq, Repr

/-- Go's conversion `int(x)` of a float to an integer truncates toward zero
(`Int.tdiv` of the rational's numerator by its denominator). -/
def goTrunc (q : ℚ) : Int := Int.tdiv q.num (q.den : Int)

/-- The body of Progress's read loop.  Each iteration reads a chunk, writes
`p[:n]` to the sink, adds `n` to `down`, computes
`percent = (float64(down) / float64(download.ContentLength)) * 100`, and
prints `strings.Repeat("*", int(percent/2.5))` — `strings.Repeat` panics when
its count is negative, which aborts the run before the error check; otherwise
`io.EOF` ends the loop with nil and any other read error is returned.
`float64` arithmetic is modelled with exact rationals; every value reached in
the theorems below is exactly representable in `float64` (no division by zero
occurs in them, since their content length is never zero). -/
def progressLoop (cl : Int) : Nat → List (List Nat × Option PErr) → PRun
  | _, [] => ⟨.ranOut, [], [], []⟩
  | down, (chunk, e) :: rest =>
    let n := chunk.length
    let down' := down + n
    let percent : ℚ := ((down' : ℚ) / (cl : ℚ)) * 100
    if goTrunc (percent / (5 / 2)) < 0 then
      ⟨.panicked, chunk, [down'], [percent]⟩
    else
      match e with
      | none =>
        let r := progressLoop cl down' rest
        ⟨r.outcome, chunk ++ r.written, down' :: r.downs, percent :: r.percents⟩
      | some .eof => ⟨.returned none, chunk, [down'], [percent]⟩
      | some (.other msg) => ⟨.returned (some msg), chunk, [down'], [percent]⟩

/-- `Progress(path, w)` after a successful GET: `cl` is the response's
declared `ContentLength` and `reads` the sequence of body reads, each at most
the 2048-byte buffer.  `down` starts at zero. -/
def Progress (cl : Int) (reads : List (List Nat × Option PErr)) : PRun :=
  progressLoop cl 0 reads

/-- Unfolding of one loop iteration that reads the final empty chunk with
`io.EOF`. -/
theorem progressLoop_eof (cl : Int) (down : Nat) :
    progressLoop cl down [([], some .eof)] =
      if goTrunc (((down : ℚ) / (cl : ℚ)) * 100 / (5 / 2)) < 0 then
        ⟨.panicked, [], [down], [((down : ℚ) / (cl : ℚ)) * 100]⟩
      else ⟨.returned none, [], [down], [((down : ℚ) / (cl : ℚ)) * 100]⟩ := rfl

/-- Unfolding of one loop iteration that reads a data chunk with a nil
error. -/
theorem progressLoop_chunk_cons (cl : Int) (down : Nat) (c : List Nat)
    (rest : List (List Nat × Option PErr)) :
    progressLoop cl down ((c, none) :: rest) =
      if goTrunc ((((down + c.length : Nat) : ℚ) / (cl : ℚ)) * 100 / (5 / 2)) < 0 then
        ⟨.panicked, c, [down + c.length], [(((down + c.length : Nat) : ℚ) / (cl : ℚ)) * 100]⟩
      else
        ⟨(progressLoop cl (down + c.length) rest).outcome,
         c ++ (progressLoop cl (down + c.length) rest).written,
         (down + c.length) :: (progressLoop cl (down + c.length) rest).downs,
         (((down + c.length : Nat) : ℚ) / (cl : ℚ)) * 100 ::
           (progressLoop cl (down + c.length) rest).percents⟩ := rfl

theorem goTrunc_intCast (n : ℤ) : goTrunc ((n : ℚ)) = n := by
  simp [goTrunc, Rat.num_intCast, Rat.den_intCast]

/-- C2 fails on the code: against a response with the standard
unknown-length value ContentLength = -1 and a nonempty body, the very first
iteration computes percent = 2 / (-1) * 100 = -200, `int(percent / 2.5)` is
-80, and `strings.Repeat` panics on the negative count — the call crashes
instead of guarding the division as the spec demands.  (With ContentLength =
0 the same line divides by zero and the Inf/NaN percent again reaches
`strings.Repeat`.) -/
theorem progress_negative_length_panics :
    Progress (-1) [([104, 105], none), ([], some .eof)] =
      ⟨.panicked, [104, 105], [2], [-200]⟩ := by
  rw [Progress, progressLoop_chunk_cons]
  rw [show (((0 + [104, 105].length : Nat) : ℚ) / ((-1 : Int) : ℚ)) * 100 = -200 by norm_num]
  rw [show ((-200 : ℚ)) / (5 / 2) = -80 by norm_num]
  rw [if_pos (show goTrunc (-80 : ℚ) < 0 by
    rw [show ((-80 : ℚ)) = ((-80 : ℤ) : ℚ) by norm_num, goTrunc_intCast]
    norm_num)]
  norm_num

/-- The reads a body of the given chunks produces: every chunk with a nil
error, then the empty read carrying `io.EOF`. -/
def chunkReads (chunks : List (List Nat)) : List (List Nat × Option PErr) :=
  chunks.map (fun c => (c, none)) ++ [([], some .eof)]

/-- Total byte length of a chunk list. -/
def totalLen (chunks : List (List Nat)) : Nat := (chunks.map List.length).sum

theorem percent_nonneg (d : Nat) (N : Nat) : 0 ≤ ((d : ℚ) / (N : ℚ)) * 100 := by
  positivity

theorem percent_le_100 {d N : Nat} (h : d ≤ N) (hN : 0 < N) :
    ((d : ℚ) / (N : ℚ)) * 100 ≤ 100 := by
  have h1 : (d : ℚ) / (N : ℚ) ≤ 1 := by
    rw [div_le_one (by exact_mod_cast hN)]
    exact_mod_cast h
  calc ((d : ℚ) / (N : ℚ)) * 100 ≤ 1 * 100 :=
        mul_le_mul_of_nonneg_right h1 (by norm_num)
    _ = 100 := by norm_num

theorem goTrunc_nonneg {q : ℚ} (h : 0 ≤ q) : 0 ≤ goTrunc q :=
  Int.tdiv_nonneg (Rat.num_nonneg.mpr h) (Int.ofNat_nonneg _)

theorem getLast?_cons_of_getLast? {α : Type} (a : α) {l : List α} {x : α}
    (h : l.getLast? = some x) : (a :: l).getLast? = some x := by
  cases l with
  | nil => exact absurd h (by simp)
  | cons b bs => simpa [List.getLast?_cons_cons] using h

/-- Invariant of the Progress loop over a body of exactly `N - down` more
bytes with declared length `N`. -/
theorem progressLoop_chunks (N : Nat) (hN : 0 < N) :
    ∀ (chunks : List (List Nat)) (down : Nat), down + totalLen chunks = N →
      (progressLoop (N : Int) down (chunkReads chunks)).outcome = .returned none ∧
      (progressLoop (N : Int) down (chunkReads chunks)).written = chunks.flatten ∧
      List.Chain' (· ≤ ·) (down :: (progressLoop (N : Int) down (chunkReads chunks)).downs) ∧
      (progressLoop (N : Int) down (chunkReads chunks)).downs.getLast? = some N ∧
      ∀ q ∈ (progressLoop (N : Int) down (chunkReads chunks)).percents,
        0 ≤ q ∧ q ≤ 100 := by
  intro chunks
  induction chunks with
  | nil =>
    intro down hsum
    have hdN : down = N := by simp [totalLen] at hsum; omega
    subst hdN
    simp only [chunkReads, List.map_nil, List.nil_append, progressLoop_eof, Int.cast_natCast]
    split_ifs with hpanic
    · exact absurd hpanic (by push_neg; exact goTrunc_nonneg (by positivity))
    · refine ⟨rfl, rfl, by simp, rfl, ?_⟩
      intro q hq'
      simp only [List.mem_singleton] at hq'
      subst hq'
      exact ⟨percent_nonneg _ _, percent_le_100 le_rfl hN⟩
  | cons c rest ih =>
    intro down hsum
    simp only [totalLen, List.map_cons, List.sum_cons] at hsum
    have hle : down + c.length ≤ N := by omega
    have hrec := ih (down + c.length) (by simp [totalLen]; omega)
    simp only [chunkReads] at hrec
    simp only [chunkReads, List.map_cons, List.cons_append, progressLoop_chunk_cons,
      Int.cast_natCast]
    split_ifs with hpanic
    · exact absurd hpanic (by push_neg; exact goTrunc_nonneg (by positivity))
    · obtain ⟨ho, hw, hc, hl, hp⟩ := hrec
      refine ⟨ho, ?_, ?_, ?_, ?_⟩
      · simp only [List.flatten_cons]
        rw [hw]
      · rw [List.chain'_cons]
        exact ⟨Nat.le_add_right down c.length, hc⟩
      · exact getLast?_cons_of_getLast? _ hl
      · intro q hq'
        simp only [List.mem_cons] at hq'
        cases hq' with
        | inl h => exact h ▸ ⟨percent_nonneg _ _, percent_le_100 hle hN⟩
        | inr h => exact hp q h

/-- C6: for a successful transfer of a body of known positive length N,
delivered in buffer-bounded chunks, Progress returns nil, writes the whole
body to the sink, keeps the running byte counter non-decreasing across
iterations, ends it at exactly N, and every computed percent lies in
[0, 100]. -/
theorem progress_monotone (chunks : List (List Nat)) (N : Nat) (hpos : 0 < N)
    (hlen : totalLen chunks = N) (hbuf : ∀ c ∈ chunks, c.length ≤ 2048) :
    (Progress (N : Int) (chunkReads chunks)).outcome = .returned none ∧
    (Progress (N : Int) (chunkReads chunks)).written = chunks.flatten ∧
    List.Chain' (· ≤ ·) (0 :: (Progress (N : Int) (chunkReads chunks)).downs) ∧
    (Progress (N : Int) (chunkReads chunks)).downs.getLast? = some N ∧
    ∀ q ∈ (Progress (N : Int) (chunkReads chunks)).percents, 0 ≤ q ∧ q ≤ 100 :=
  progressLoop_chunks N hpos chunks 0 (by omega)

theorem progress_monotone_witness :
    0 < 3 ∧ totalLen [[7, 8], [9]] = 3 ∧ (∀ c ∈ [[7, 8], [9]], List.length c ≤ 2048) ∧
    ((Progress ((3 : Nat) : Int) (chunkReads [[7, 8], [9]])).outcome = .returned none ∧
     (Progress ((3 : Nat) : Int) (chunkReads [[7, 8], [9]])).written = [[7, 8], [9]].flatten ∧
     List.Chain' (· ≤ ·) (0 :: (Progress ((3 : Nat) : Int) (chunkReads [[7, 8], [9]])).downs) ∧
     (Progress ((3 : Nat) : Int) (chunkReads [[7, 8], [9]])).downs.getLast? = some 3 ∧
     ∀ q ∈ (Progress ((3 : Nat) : Int) (chunkReads [[7, 8], [9]])).percents,
       0 ≤ q ∧ q ≤ 100) :=
  ⟨by decide, by decide, by decide,
   progress_monotone [[7, 8], [9]] 3 (by decide) (by decide) (by decide)⟩

/-- The body read performed by `ioutil.ReadAll(res.Body)`. -/
inductive BodyRead where
  | ok (bytes : List Nat)
  | fail (msg : String)
deriving DecidableEq, Repr

/-- What `http.Get` produced: a transport-level error (the returned response
is then nil), or a response whose body reads as `body`. -/
inductive GetResult where
  | failure (msg : String)
  | success (body : BodyRead)
deriving DecidableEq, Repr

/-- Observable fate of one `Download` call.  `panicked` is the nil-pointer
dereference of `res.Body` in the deferred close; `fatalCalled` records that
`config.Fatal` was invoked (control never returns the read error to the
caller); `returned e` is a normal return. -/
inductive DlOutcome where
  | panicked
  | fatalCalled (msg : String)
  | returned (e : Option String)
deriving DecidableEq, Repr

/-- `Download(path, w)`: `res, err := http.Get(path)` is followed by
`defer res.Body.Close()` BEFORE the nil check, so a failed GET (nil response)
dereferences a nil pointer when `res.Body` is evaluated — the call panics and
`return err` is never reached.  On a successful GET, a failed
`ioutil.ReadAll` goes to `config.Fatal` instead of the return value; on a
successful read, `w.Write(b)` is executed with both results discarded
(`wrote`/`werr` model what the sink reports) and nil is returned. -/
def Download (get : GetResult) (wrote : Nat) (werr : Option String) : DlOutcome :=
  match get with
  | .failure _ => .panicked
  | .success (.fail msg) => .fatalCalled msg
  | .success (.ok _) => .returned none

/-- C7 fails on the code: a transport-level GET failure never reaches
`return err` — the deferred `res.Body.Close()` dereferences the nil response
and the call panics; and a body-read failure is routed into `config.Fatal`
rather than being returned.  In neither failure mode does Download return the
first error to its caller. -/
theorem download_failure_not_returned (msg : String) (wrote : Nat) (werr : Option String) :
    Download (.failure msg) wrote werr = .panicked ∧
    Download (.success (.fail msg)) wrote werr = .fatalCalled msg ∧
    ∀ e : Option String, Download (.failure msg) wrote werr ≠ .returned e :=
  ⟨rfl, rfl, fun _ h => DlOutcome.noConfusion h⟩

/-- C10: when the GET and the body read both succeed, Download returns nil
whatever the sink's single Write reported — a write error or a short write
count is silently discarded. -/
theorem download_ignores_write_result (body : List Nat) (wrote : Nat) (werr : Option String) :
    Download (.success (.ok body)) wrote werr = .returned none := rfl

/-- `strings.ToUpper` on one byte of the ASCII range: 97–122 ('a'–'z') map
down by 32 to 'A'–'Z'; everything else is unchanged.  (The Go function also
maps non-ASCII letters; the keys these commands handle are byte strings and
the ASCII fragment is what the theorems rely on.) -/
def toUpperByte (b : Nat) : Nat := if 97 ≤ b ∧ b ≤ 122 then b - 32 else b

/-- `strings.ToUpper` over a byte string. -/
def toUpperStr (s : List Nat) : List Nat := s.map toUpperByte

/-- `strings.Split(s, sep)` for a one-byte separator: the possibly empty
chunks of `s` between occurrences of `sep` (58 = ':', 44 = ','). -/
def splitByte (sep : Nat) : List Nat → List (List Nat)
  | [] => [[]]
  | b :: rest =>
    if b = sep then [] :: splitByte sep rest
    else
      match splitByte sep rest with
      | chunk :: parts => (b :: chunk) :: parts
      | [] => [[b]]

/-- The persisted environment-variable map (`models.EnvVars`), as the ordered
key/value pairs of a Go map with overwrite-on-insert semantics. -/
abbrev EnvMap := List (List Nat × List Nat)

/-- `evars[k] = v`: overwrite the existing entry of key `k`, else append. -/
def mapPut (m : EnvMap) (k v : List Nat) : EnvMap :=
  if m.any (fun p => p.1 == k) then m.map (fun p => if p.1 == k then (k, v) else p)
  else m ++ [(k, v)]

/-- `delete(evars, k)`. -/
def mapDel (m : EnvMap) (k : List Nat) : EnvMap :=
  m.filter (fun p => !(p.1 == k))

/-- The inner body of envAddFn: `parts := strings.Split(pair, ":")`; only when
`len(parts) == 2` does `evars[strings.ToUpper(parts[0])] = parts[1]` run — any
other split silently ignores the pair. -/
def envAddPair (m : EnvMap) (pair : List Nat) : EnvMap :=
  match splitByte 58 pair with
  | [k, v] => mapPut m (toUpperStr k) v
  | _ => m

/-- `envAddFn`: for every argument, split on ',' and process each pair. -/
def envAddFn (args : List (List Nat)) (m : EnvMap) : EnvMap :=
  args.foldl (fun acc arg => (splitByte 44 arg).foldl envAddPair acc) m

/-- `envRemoveFn`: for every argument, split on ',' and delete
`strings.ToUpper(key)` for each listed key. -/
def envRemoveFn (args : List (List Nat)) (m : EnvMap) : EnvMap :=
  args.foldl (fun acc arg =>
    (splitByte 44 arg).foldl (fun a k => mapDel a (toUpperStr k)) acc) m

/-- The keys of the persisted map. -/
def keysOf (m : EnvMap) : List (List Nat) := m.map Prod.fst

theorem toUpperByte_idem (b : Nat) : toUpperByte (toUpperByte b) = toUpperByte b := by
  unfold toUpperByte
  split
  · rename_i h
    have : ¬(97 ≤ b - 32 ∧ b - 32 ≤ 122) := by omega
    rw [if_neg this]
  · rfl

theorem toUpperStr_idem (s : List Nat) : toUpperStr (toUpperStr s) = toUpperStr s := by
  simp only [toUpperStr, List.map_map]
  exact List.map_congr_left (fun b _ => toUpperByte_idem b)

theorem mapPut_keys {m : EnvMap} {k v : List Nat} {x : List Nat}
    (h : x ∈ keysOf (mapPut m k v)) : x ∈ keysOf m ∨ x = k := by
  unfold mapPut at h
  split at h
  · left
    simp only [keysOf, List.map_map, List.mem_map] at h ⊢
    obtain ⟨p, hp, hx⟩ := h
    refine ⟨p, hp, ?_⟩
    by_cases hpk : p.1 == k
    · simp only [Function.comp, if_pos hpk] at hx
      have : p.1 = k := by simpa using hpk
      simp [← hx, this]
    · simpa [Function.comp, hpk] using hx
  · simp only [keysOf, List.map_append, List.mem_append, List.map_cons, List.map_nil,
      List.mem_singleton] at h
    cases h with
    | inl h => exact Or.inl h
    | inr h => exact Or.inr (by simpa using h)

theorem envAddPair_keys {m : EnvMap} {pair : List Nat} {x : List Nat}
    (h : x ∈ keysOf (envAddPair m pair)) : x ∈ keysOf m ∨ toUpperStr x = x := by
  unfold envAddPair at h
  split at h
  · rename_i k v _
    cases mapPut_keys h with
    | inl h' => exact Or.inl h'
    | inr h' => exact Or.inr (by rw [h']; exact toUpperStr_idem k)
  · exact Or.inl h

theorem foldl_envAddPair_keys :
    ∀ (pairs : List (List Nat)) (m : EnvMap) (x : List Nat),
      x ∈ keysOf (pairs.foldl envAddPair m) → x ∈ keysOf m ∨ toUpperStr x = x := by
  intro pairs
  induction pairs with
  | nil => intro m x h; exact Or.inl h
  | cons p ps ih =>
    intro m x h
    cases ih (envAddPair m p) x h with
    | inl h' =>
      cases envAddPair_keys h' with
      | inl h'' => exact Or.inl h''
      | inr h'' => exact Or.inr h''
    | inr h' => exact Or.inr h'

theorem envAddFn_keys :
    ∀ (args : List (List Nat)) (m : EnvMap) (x : List Nat),
      x ∈ keysOf (envAddFn args m) → x ∈ keysOf m ∨ toUpperStr x = x := by
  intro args
  induction args with
  | nil => intro m x h; exact Or.inl h
  | cons a as ih =>
    intro m x h
    simp only [envAddFn, List.foldl_cons] at h
    cases ih ((splitByte 44 a).foldl envAddPair m) x (by simpa [envAddFn] using h) with
    | inl h' =>
      cases foldl_envAddPair_keys (splitByte 44 a) m x h' with
      | inl h'' => exact Or.inl h''
      | inr h'' => exact Or.inr h''
    | inr h' => exact Or.inr h'

theorem mapDel_keeps {m : EnvMap} {delk x : List Nat}
    (hx : x ∈ keysOf m) (hne : x ≠ delk) : x ∈ keysOf (mapDel m delk) := by
  simp only [keysOf, List.mem_map] at hx ⊢
  obtain ⟨p, hp, hxp⟩ := hx
  refine ⟨p, ?_, hxp⟩
  simp only [mapDel, List.mem_filter, hp, true_and, Bool.not_eq_true']
  subst hxp
  simpa using hne

theorem foldl_mapDel_keeps :
    ∀ (ks : List (List Nat)) (m : EnvMap) (x : List Nat),
      x ∈ keysOf m → toUpperStr x ≠ x →
      x ∈ keysOf (ks.foldl (fun a k => mapDel a (toUpperStr k)) m) := by
  intro ks
  induction ks with
  | nil => intro m x hx _; exact hx
  | cons k rest ih =>
    intro m x hx hup
    simp only [List.foldl_cons]
    refine ih (mapDel m (toUpperStr k)) x ?_ hup
    refine mapDel_keeps hx ?_
    intro hcontra
    apply hup
    rw [hcontra]
    exact toUpperStr_idem k

theorem envRemoveFn_keeps :
    ∀ (args : List (List Nat)) (m : EnvMap) (x : List Nat),
      x ∈ keysOf m → toUpperStr x ≠ x → x ∈ keysOf (envRemoveFn args m) := by
  intro args
  induction args with
  | nil => intro m x hx _; exact hx
  | cons a as ih =>
    intro m x hx hup
    simp only [envRemoveFn, List.foldl_cons]
    exact ih _ x (by simpa [envRemoveFn] using foldl_mapDel_keeps (splitByte 44 a) m x hx hup) hup

/-- C9: every key the evar add command stores and every key the evar remove
command deletes first passes through `strings.ToUpper` — a key of the result
of add is either an old key or is fixed by upper-casing, a key not fixed by
upper-casing can never be deleted by remove, and an add pair that does not
split on ':' into exactly two parts is silently ignored. -/
theorem evar_keys_uppercased :
    (∀ (args : List (List Nat)) (m : EnvMap) (x : List Nat),
       x ∈ keysOf (envAddFn args m) → x ∈ keysOf m ∨ toUpperStr x = x) ∧
    (∀ (args : List (List Nat)) (m : EnvMap) (x : List Nat),
       x ∈ keysOf m → toUpperStr x ≠ x → x ∈ keysOf (envRemoveFn args m)) ∧
    (∀ (m : EnvMap) (pair : List Nat),
       (splitByte 58 pair).length ≠ 2 → envAddPair m pair = m) := by
  refine ⟨envAddFn_keys, envRemoveFn_keeps, ?_⟩
  intro m pair hlen
  unfold envAddPair
  split
  · rename_i k v heq
    exact absurd (by rw [heq]; rfl) hlen
  · rfl

theorem evar_keys_uppercased_witness :
    ([70, 79, 79] ∈ keysOf (envAddFn [[102, 111, 111, 58, 98]] []) ∧
     ([70, 79, 79] ∈ keysOf ([] : EnvMap) ∨ toUpperStr [70, 79, 79] = [70, 79, 79])) ∧
    ([97, 98] ∈ keysOf [([97, 98], [1])] ∧ toUpperStr [97, 98] ≠ [97, 98] ∧
     [97, 98] ∈ keysOf (envRemoveFn [[97, 66]] [([97, 98], [1])])) ∧
    ((splitByte 58 [120]).length ≠ 2 ∧ envAddPair [([99], [2])] [120] = [([99], [2])]) := by
  refine ⟨⟨by decide, ?_⟩, ⟨by decide, by decide, ?_⟩, ⟨by decide, ?_⟩⟩
  · exact evar_keys_uppercased.1 [[102, 111, 111, 58, 98]] [] [70, 79, 79] (by decide)
  · exact evar_keys_uppercased.2.1 [[97, 66]] [([97, 98], [1])] [97, 98] (by decide) (by decide)
  · exact evar_keys_uppercased.2.2 [([99], [2])] [120] (by decide)

end Nanobox
